import Mathlib

/-!
Verification development for the AI Wiki Quiz Generator repository.

The definitions below are a shallow embedding of the JavaScript source:

* `frontend/src/services/api.js` (mirrored in `sample_data/run_sample_tests.js`):
  `isValidWikipediaUrl`, `extractArticleTitle`, `generateQuiz`, `getQuizById`;
* `frontend/src/components/QuizDisplay.jsx`: `calculateScore`,
  `groupQuestionsBySection`, and the option-letter answer marking.

JavaScript strings are modelled as Lean `String`/`List Char` (one entry per
code point), JavaScript dynamic values as the `JSValue` sum type, and
fallible operations as `Option`.
-/

namespace WikiQuiz

/-- The four ECMAScript line terminators, which the regex metacharacter `.`
(without the `s` flag) does not match: LF, CR, LINE SEPARATOR, PARAGRAPH
SEPARATOR. -/
def isLineTerm (c : Char) : Bool :=
  c = '\n' || c = '\r' || c = ' ' || c = ' '

/-- Matching of one pattern character of the regex
`/^https?:\/\/[a-z]{2,3}\.wikipedia\.org\/wiki\/.+/i` against one subject
character.  Every literal letter of the pattern is lowercase and, because of
the `i` flag, matches its ASCII case pair (without the `u` flag, ECMAScript
canonicalisation never identifies a non-ASCII character with an ASCII one);
the punctuation literals match exactly. -/
def patCh (p c : Char) : Bool :=
  if p.isAlpha then c.toLower = p else c = p

/-- `matchesPat p t`: the character list `t` matches the literal pattern `p`
character by character (case-insensitively on letters). -/
def matchesPat : List Char → List Char → Bool
  | [], [] => true
  | p :: ps, c :: cs => patCh p c && matchesPat ps cs
  | _, _ => false

/-- Consume the literal pattern `p` from the front of `s`, returning the
remainder on success. -/
def matchLit : List Char → List Char → Option (List Char)
  | [], s => some s
  | _ :: _, [] => none
  | p :: ps, c :: cs => if patCh p c then matchLit ps cs else none

/-- Consume `https?://` (case-insensitively) from the front of `s`.  After
the literal `http`, an `s` is consumed when present (the regex needs no
further backtracking here since `s` and `:` are distinct even
case-insensitively). -/
def matchScheme (s : List Char) : Option (List Char) :=
  match matchLit ['h', 't', 't', 'p'] s with
  | none => none
  | some r =>
    match r with
    | [] => none
    | c :: rest =>
      if c.toLower = 's' then matchLit [':', '/', '/'] rest
      else matchLit [':', '/', '/'] (c :: rest)

/-- Consume `[a-z]{2,3}\.` (with the `i` flag: two or three ASCII letters,
greedily, then a literal dot) from the front of `s`.  The greedy three-letter
attempt backtracks to two letters only when the third character is a dot. -/
def matchSubdomain (s : List Char) : Option (List Char) :=
  match s with
  | a :: b :: rest =>
    if a.isAlpha && b.isAlpha then
      match rest with
      | [] => none
      | c :: rest2 =>
        if c.isAlpha then
          match rest2 with
          | d :: rest3 => if d = '.' then some rest3 else none
          | [] => none
        else if c = '.' then some rest2
        else none
    else none
  | _ => none

/-- The remainder of `s` after the case-insensitive prefix
`https?://[a-z]{2,3}.wikipedia.org`; for strings the validator accepts this
remainder starts with the actual `/wiki/...` path characters. -/
def hostTail (s : String) : Option (List Char) :=
  match matchScheme s.data with
  | none => none
  | some r1 =>
    match matchSubdomain r1 with
    | none => none
    | some r2 => matchLit ("wikipedia.org").data r2

/-- Embedding of `isValidWikipediaUrl` from `frontend/src/services/api.js`:
a falsy or non-string argument is handled by `isValidWikipediaUrlJS` below;
for a string the result is the test of the regex
`/^https?:\/\/[a-z]{2,3}\.wikipedia\.org\/wiki\/.+/i`, i.e. an unanchored
prefix match requiring at least one non-line-terminator character after
`/wiki/` (the guard `!url` only excludes the empty string, which the regex
rejects anyway). -/
def isValidWikipediaUrl (s : String) : Bool :=
  match hostTail s with
  | none => false
  | some r =>
    match matchLit ("/wiki/").data r with
    | none => false
    | some [] => false
    | some (c :: _) => !(isLineTerm c)

example : isValidWikipediaUrl "https://en.wikipedia.org/wiki/Haiku" = true := by decide
example : isValidWikipediaUrl "HTTP://EN.WIKIPEDIA.ORG/WIKI/X" = true := by decide
example : isValidWikipediaUrl "https://en.wikipedia.org/wiki/" = false := by decide
example : isValidWikipediaUrl "https://en.wikipedia.org/" = false := by decide
example : isValidWikipediaUrl "https://wikipedia.org" = false := by decide
example : isValidWikipediaUrl "http://google.com" = false := by decide
example : isValidWikipediaUrl "ftp://en.wikipedia.org/wiki/Test" = false := by decide
example : isValidWikipediaUrl "not-a-url" = false := by decide
example : isValidWikipediaUrl "" = false := by decide
example : isValidWikipediaUrl "https://abcd.wikipedia.org/wiki/X" = false := by decide
example : isValidWikipediaUrl "https://a.wikipedia.org/wiki/X" = false := by decide
example : isValidWikipediaUrl "https://en.wikipedia.org/wiki/A/B" = true := by decide
example : isValidWikipediaUrl "https://en.wikipedia.org/wiki/\n" = false := by decide

/-- The scheme-and-separator part of an accepted string: a case variant of
`http://` or of `https://`. -/
def schemeOk (t : List Char) : Bool :=
  matchesPat ("http://").data t || matchesPat ("https://").data t

/-- The language-subdomain part of an accepted string: two or three ASCII
letters. -/
def subOk (t : List Char) : Bool :=
  (t.length = 2 || t.length = 3) && t.all (fun c => c.isAlpha)

theorem patCh_of_alpha {p c : Char} (hp : p.isAlpha = true) :
    patCh p c = true ↔ c.toLower = p := by
  simp [patCh, hp]

theorem patCh_of_not_alpha {p c : Char} (hp : p.isAlpha = false) :
    patCh p c = true ↔ c = p := by
  simp [patCh, hp]

theorem matchLit_some_iff (p : List Char) : ∀ (s r : List Char),
    matchLit p s = some r ↔ ∃ t, s = t ++ r ∧ matchesPat p t = true := by
  induction p with
  | nil =>
    intro s r
    simp only [matchLit, Option.some.injEq]
    constructor
    · intro h
      exact ⟨[], by simp [h], rfl⟩
    · rintro ⟨t, hs, ht⟩
      cases t with
      | nil => simpa using hs
      | cons c cs => simp [matchesPat] at ht
  | cons pc ps ih =>
    intro s r
    cases s with
    | nil =>
      constructor
      · intro h; simp [matchLit] at h
      · rintro ⟨t, hs, ht⟩
        cases t with
        | nil => simp [matchesPat] at ht
        | cons c cs => simp at hs
    | cons c cs =>
      constructor
      · intro h
        simp only [matchLit] at h
        by_cases hp : patCh pc c = true
        · rw [if_pos hp] at h
          obtain ⟨t, hs, ht⟩ := (ih cs r).mp h
          exact ⟨c :: t, by simp [hs], by simp [matchesPat, hp, ht]⟩
        · rw [if_neg hp] at h
          exact absurd h (by simp)
      · rintro ⟨t, hs, ht⟩
        cases t with
        | nil => simp [matchesPat] at ht
        | cons d ds =>
          simp only [List.cons_append, List.cons.injEq] at hs
          obtain ⟨rfl, hs2⟩ := hs
          simp only [matchesPat, Bool.and_eq_true] at ht
          simp only [matchLit, if_pos ht.1]
          exact (ih cs r).mpr ⟨ds, hs2, ht.2⟩

theorem matchLit_of_matchesPat {p t : List Char} (h : matchesPat p t = true)
    (r : List Char) : matchLit p (t ++ r) = some r :=
  (matchLit_some_iff p (t ++ r) r).mpr ⟨t, rfl, h⟩

theorem matchesPat_append {p1 t1 : List Char} (h1 : matchesPat p1 t1 = true) :
    ∀ {p2 t2 : List Char}, matchesPat p2 t2 = true →
      matchesPat (p1 ++ p2) (t1 ++ t2) = true := by
  induction p1 generalizing t1 with
  | nil =>
    cases t1 with
    | nil => intro p2 t2 h2; simpa using h2
    | cons c cs => simp [matchesPat] at h1
  | cons pc ps ih =>
    cases t1 with
    | nil => simp [matchesPat] at h1
    | cons c cs =>
      intro p2 t2 h2
      simp only [matchesPat, Bool.and_eq_true] at h1
      simpa [matchesPat, h1.1] using ih h1.2 h2

theorem matchesPat_split (p1 p2 : List Char) {t : List Char}
    (h : matchesPat (p1 ++ p2) t = true) :
    ∃ t1 t2, t = t1 ++ t2 ∧ matchesPat p1 t1 = true ∧ matchesPat p2 t2 = true := by
  induction p1 generalizing t with
  | nil => exact ⟨[], t, rfl, rfl, by simpa using h⟩
  | cons pc ps ih =>
    cases t with
    | nil => simp [matchesPat] at h
    | cons c cs =>
      simp only [List.cons_append, matchesPat, Bool.and_eq_true] at h
      obtain ⟨t1, t2, rfl, hA, hB⟩ := ih h.2
      exact ⟨c :: t1, t2, rfl, by simp [matchesPat, h.1, hA], hB⟩

theorem matchesPat_symbols {p : List Char} (hp : ∀ c ∈ p, c.isAlpha = false) :
    ∀ {t : List Char}, matchesPat p t = true → t = p := by
  induction p with
  | nil =>
    intro t h
    cases t with
    | nil => rfl
    | cons c cs => simp [matchesPat] at h
  | cons pc ps ih =>
    intro t h
    cases t with
    | nil => simp [matchesPat] at h
    | cons c cs =>
      simp only [matchesPat, Bool.and_eq_true] at h
      have hc : c = pc := (patCh_of_not_alpha (hp pc (by simp))).mp h.1
      have hcs : cs = ps := ih (fun d hd => hp d (by simp [hd])) h.2
      rw [hc, hcs]

theorem matchScheme_some_iff (s r : List Char) :
    matchScheme s = some r ↔ ∃ t, s = t ++ r ∧ schemeOk t = true := by
  constructor
  · intro h
    unfold matchScheme at h
    cases hh : matchLit ['h', 't', 't', 'p'] s with
    | none => rw [hh] at h; exact absurd h (by simp)
    | some r1 =>
      rw [hh] at h
      obtain ⟨t1, hs1, ht1⟩ := (matchLit_some_iff _ _ _).mp hh
      cases r1 with
      | nil => exact absurd h (by simp)
      | cons c rest =>
        dsimp only at h
        by_cases hc : c.toLower = 's'
        · rw [if_pos hc] at h
          obtain ⟨t2, hs2, ht2⟩ := (matchLit_some_iff _ _ _).mp h
          refine ⟨t1 ++ c :: t2, by simp [hs1, hs2], ?_⟩
          have hstail : matchesPat ['s', ':', '/', '/'] (c :: t2) = true := by
            simp only [matchesPat, Bool.and_eq_true]
            exact ⟨(patCh_of_alpha (by decide)).mpr hc, ht2⟩
          have hall : matchesPat (['h', 't', 't', 'p'] ++ ['s', ':', '/', '/'])
              (t1 ++ c :: t2) = true := matchesPat_append ht1 hstail
          simp only [schemeOk, Bool.or_eq_true]
          right
          exact hall
        · rw [if_neg hc] at h
          obtain ⟨t2, hs2, ht2⟩ := (matchLit_some_iff _ _ _).mp h
          refine ⟨t1 ++ t2, by simp [hs1, hs2], ?_⟩
          have hall : matchesPat (['h', 't', 't', 'p'] ++ [':', '/', '/'])
              (t1 ++ t2) = true := matchesPat_append ht1 ht2
          simp only [schemeOk, Bool.or_eq_true]
          left
          exact hall
  · rintro ⟨t, rfl, ht⟩
    simp only [schemeOk, Bool.or_eq_true] at ht
    cases ht with
    | inl h7 =>
      obtain ⟨t1, t2, rfl, hA, hB⟩ :=
        matchesPat_split ['h', 't', 't', 'p'] [':', '/', '/'] h7
      have ht2 : t2 = [':', '/', '/'] := matchesPat_symbols (by decide) hB
      subst ht2
      unfold matchScheme
      rw [List.append_assoc, matchLit_of_matchesPat hA]
      simp only [List.cons_append, List.nil_append]
      rw [if_neg (by decide)]
      exact matchLit_of_matchesPat (p := [':', '/', '/']) (t := [':', '/', '/']) (by decide) r
    | inr h8 =>
      obtain ⟨t1, t2, rfl, hA, hB⟩ :=
        matchesPat_split ['h', 't', 't', 'p'] ['s', ':', '/', '/'] h8
      cases t2 with
      | nil => simp [matchesPat] at hB
      | cons c t3 =>
        simp only [matchesPat, Bool.and_eq_true] at hB
        have hc : c.toLower = 's' := (patCh_of_alpha (by decide)).mp hB.1
        have ht3 : t3 = [':', '/', '/'] := matchesPat_symbols (by decide) hB.2
        subst ht3
        unfold matchScheme
        rw [List.append_assoc, matchLit_of_matchesPat hA]
        simp only [List.cons_append, List.nil_append]
        rw [if_pos hc]
        exact matchLit_of_matchesPat (p := [':', '/', '/']) (t := [':', '/', '/']) (by decide) r

theorem matchSubdomain_some_iff (s r : List Char) :
    matchSubdomain s = some r ↔ ∃ t, s = t ++ '.' :: r ∧ subOk t = true := by
  constructor
  · intro h
    unfold matchSubdomain at h
    cases s with
    | nil => exact absurd h (by simp)
    | cons a s1 =>
      cases s1 with
      | nil => exact absurd h (by simp)
      | cons b rest =>
        dsimp only at h
        by_cases hab : (a.isAlpha && b.isAlpha) = true
        · rw [if_pos hab] at h
          simp only [Bool.and_eq_true] at hab
          cases rest with
          | nil => exact absurd h (by simp)
          | cons c rest2 =>
            dsimp only at h
            by_cases hc : c.isAlpha = true
            · rw [if_pos hc] at h
              cases rest2 with
              | nil => exact absurd h (by simp)
              | cons d rest3 =>
                dsimp only at h
                by_cases hd : d = '.'
                · rw [if_pos hd] at h
                  refine ⟨[a, b, c], ?_, by simp [subOk, hab.1, hab.2, hc]⟩
                  simp only [Option.some.injEq] at h
                  simp [hd, h]
                · rw [if_neg hd] at h
                  exact absurd h (by simp)
            · rw [if_neg hc] at h
              by_cases hdot : c = '.'
              · rw [if_pos hdot] at h
                refine ⟨[a, b], ?_, by simp [subOk, hab.1, hab.2]⟩
                simp only [Option.some.injEq] at h
                simp [hdot, h]
              · rw [if_neg hdot] at h
                exact absurd h (by simp)
        · rw [if_neg hab] at h
          exact absurd h (by simp)
  · rintro ⟨t, rfl, ht⟩
    simp only [subOk, Bool.and_eq_true, Bool.or_eq_true, decide_eq_true_eq,
      List.all_eq_true] at ht
    obtain ⟨hlen, hall⟩ := ht
    cases hlen with
    | inl h2 =>
      match t, h2, hall with
      | [a, b], _, hall =>
        have ha : a.isAlpha = true := by simpa using hall a (by simp)
        have hb : b.isAlpha = true := by simpa using hall b (by simp)
        unfold matchSubdomain
        simp only [List.cons_append, List.nil_append]
        rw [if_pos (by simp [ha, hb])]
        rw [if_neg (by decide)]
        simp
    | inr h3 =>
      match t, h3, hall with
      | [a, b, c], _, hall =>
        have ha : a.isAlpha = true := by simpa using hall a (by simp)
        have hb : b.isAlpha = true := by simpa using hall b (by simp)
        have hc : c.isAlpha = true := by simpa using hall c (by simp)
        unfold matchSubdomain
        simp only [List.cons_append, List.nil_append]
        rw [if_pos (by simp [ha, hb])]
        rw [if_pos hc]
        simp

theorem hostTail_some_iff (s : String) (r : List Char) :
    hostTail s = some r ↔
      ∃ t1 t2 t3, s.data = t1 ++ t2 ++ '.' :: (t3 ++ r) ∧
        schemeOk t1 = true ∧ subOk t2 = true ∧
        matchesPat ("wikipedia.org").data t3 = true := by
  constructor
  · intro h
    unfold hostTail at h
    cases h1 : matchScheme s.data with
    | none => rw [h1] at h; exact absurd h (by simp)
    | some r1 =>
      rw [h1] at h
      dsimp only at h
      obtain ⟨t1, hs1, ht1⟩ := (matchScheme_some_iff _ _).mp h1
      cases h2 : matchSubdomain r1 with
      | none => rw [h2] at h; exact absurd h (by simp)
      | some r2 =>
        rw [h2] at h
        dsimp only at h
        obtain ⟨t2, hs2, ht2⟩ := (matchSubdomain_some_iff _ _).mp h2
        obtain ⟨t3, hs3, ht3⟩ := (matchLit_some_iff _ _ _).mp h
        refine ⟨t1, t2, t3, ?_, ht1, ht2, ht3⟩
        rw [hs1, hs2, hs3]
        simp [List.append_assoc]
  · rintro ⟨t1, t2, t3, hs, h1, h2, h3⟩
    unfold hostTail
    have hsch : matchScheme s.data = some (t2 ++ '.' :: (t3 ++ r)) := by
      refine (matchScheme_some_iff _ _).mpr ⟨t1, ?_, h1⟩
      rw [hs]; simp [List.append_assoc]
    rw [hsch]
    dsimp only
    have hsub : matchSubdomain (t2 ++ '.' :: (t3 ++ r)) = some (t3 ++ r) :=
      (matchSubdomain_some_iff _ _).mpr ⟨t2, rfl, h2⟩
    rw [hsub]
    dsimp only
    exact matchLit_of_matchesPat h3 r

/-- The characterisation of the validator used by several claims: a string is
accepted exactly when it decomposes into a case variant of `http://` or
`https://`, a two- or three-letter subdomain, a dot, a case variant of
`wikipedia.org/wiki/`, and at least one further character that is not a line
terminator; the remainder `rest` is unconstrained, since the regex has no
end anchor. -/
theorem isValidWikipediaUrl_eq_true_iff (s : String) :
    isValidWikipediaUrl s = true ↔
      ∃ t1 t2 t3 c rest,
        s.data = t1 ++ t2 ++ '.' :: (t3 ++ c :: rest) ∧
        schemeOk t1 = true ∧ subOk t2 = true ∧
        matchesPat ("wikipedia.org/wiki/").data t3 = true ∧
        isLineTerm c = false := by
  have hsplit : ("wikipedia.org").data ++ ("/wiki/").data =
      ("wikipedia.org/wiki/").data := by decide
  constructor
  · intro h
    unfold isValidWikipediaUrl at h
    cases h1 : hostTail s with
    | none => rw [h1] at h; exact absurd h (by simp)
    | some r =>
      rw [h1] at h
      dsimp only at h
      cases h2 : matchLit ("/wiki/").data r with
      | none => rw [h2] at h; exact absurd h (by simp)
      | some r2 =>
        rw [h2] at h
        cases r2 with
        | nil => exact absurd h (by simp)
        | cons c rest =>
          dsimp only at h
          obtain ⟨t1, t2, t3a, hs, ht1, ht2, ht3a⟩ := (hostTail_some_iff _ _).mp h1
          obtain ⟨t4, hr, ht4⟩ := (matchLit_some_iff _ _ _).mp h2
          have h34 : matchesPat (("wikipedia.org").data ++ ("/wiki/").data)
              (t3a ++ t4) = true := matchesPat_append ht3a ht4
          rw [hsplit] at h34
          refine ⟨t1, t2, t3a ++ t4, c, rest, ?_, ht1, ht2, h34, by
            simpa using h⟩
          rw [hs, hr]
          simp [List.append_assoc]
  · rintro ⟨t1, t2, t3, c, rest, hs, h1, h2, h3, hc⟩
    rw [← hsplit] at h3
    obtain ⟨t3a, t4, rfl, h3a, h3b⟩ := matchesPat_split _ _ h3
    unfold isValidWikipediaUrl
    have hht : hostTail s = some (t4 ++ c :: rest) := by
      refine (hostTail_some_iff _ _).mpr ⟨t1, t2, t3a, ?_, h1, h2, h3a⟩
      rw [hs]; simp [List.append_assoc]
    rw [hht]
    dsimp only
    rw [matchLit_of_matchesPat h3b (c :: rest)]
    dsimp only
    simp [hc]

/-- Consume the literal pattern `p` (case-sensitively) from the front of
`s`, returning the remainder on success; used to state claim C1's shape,
whose fixed `.wikipedia.org/wiki/` part is written in lowercase. -/
def matchExact : List Char → List Char → Option (List Char)
  | [], s => some s
  | _ :: _, [] => none
  | p :: ps, c :: cs => if c = p then matchExact ps cs else none

/-- The shape named by claim C1, read literally: `http(s)://` (scheme
case-insensitive), a 2-3 letter language subdomain (case-insensitive), the
exact lowercase text `.wikipedia.org/wiki/`, and a final non-empty path
segment (no further `/`), with nothing after it. -/
def claimShapeC1 (s : String) : Bool :=
  match matchScheme s.data with
  | none => false
  | some r1 =>
    match matchSubdomain r1 with
    | none => false
    | some r2 =>
      match matchExact ("wikipedia.org/wiki/").data r2 with
      | none => false
      | some seg => !seg.isEmpty && seg.all (fun c => !(c = '/'))

example : claimShapeC1 "https://en.wikipedia.org/wiki/Haiku" = true := by decide
example : claimShapeC1 "HTTPS://EN.wikipedia.org/wiki/Haiku" = true := by decide
example : claimShapeC1 "https://en.wikipedia.org/wiki/A/B" = false := by decide
example : claimShapeC1 "https://en.wikipedia.org/WIKI/Test" = false := by decide

/-- JavaScript dynamic values, as far as the API layer distinguishes them:
`null`, `undefined`, booleans, (integer) numbers and strings. -/
inductive JSValue where
  | vNull
  | vUndefined
  | vBool (b : Bool)
  | vNum (n : Int)
  | vStr (s : String)
deriving DecidableEq

/-- `isValidWikipediaUrl` as callable on an arbitrary JavaScript value: the
guard `if (!url || typeof url !== 'string') return false` makes every
non-string and the empty string yield `false`; for other strings the regex
test decides. -/
def isValidWikipediaUrlJS : JSValue → Bool
  | .vStr s => if s = "" then false else isValidWikipediaUrl s
  | _ => false

/-- The three ways `generateQuiz` in `frontend/src/services/api.js` can
leave its validation phase: throwing the required-field error, throwing the
invalid-Wikipedia-URL error, or issuing `apiRequest('/generate_quiz', …)`. -/
inductive GenerateQuizOutcome where
  | errRequired
  | errInvalidUrl
  | request (url : String)
deriving DecidableEq

/-- Embedding of `generateQuiz` up to the point where the HTTP request is
issued: `if (!url || typeof url !== 'string')` throws
`'URL is required and must be a string'` (for a string, `!url` holds exactly
for the empty string); then a failed regex test throws
`'Please provide a valid Wikipedia URL …'`; only then is the request
sent. -/
def generateQuiz : JSValue → GenerateQuizOutcome
  | .vStr s =>
    if s = "" then .errRequired
    else if isValidWikipediaUrl s then .request s
    else .errInvalidUrl
  | _ => .errRequired

/-- Modelled from the spec: the backend `GET /quiz/{id}` handler is not part
of the repository snapshot (only the frontend and test scripts are); per the
spec's interface table it returns 200 with the record only for an existing
positive integer id, and 400 or 404 — modelled as 404 — otherwise.  `store`
abstracts which ids exist in the database. -/
def quizEndpointStatus (store : Int → Bool) (id : Int) : Nat :=
  if 0 < id ∧ store id then 200 else 404

/-- Result of a frontend API call: either an exception was thrown (with its
message) or the call succeeded. -/
inductive FetchOutcome where
  | thrown (msg : String)
  | success
deriving DecidableEq

/-- Embedding of `getQuizById`: the guard
`if (!quizId || typeof quizId !== 'number')` throws for `0` and for every
non-number; otherwise `apiRequest` issues `GET /quiz/{id}` and throws on any
non-ok response status. -/
def getQuizById (store : Int → Bool) : JSValue → FetchOutcome
  | .vNum n =>
    if n = 0 then .thrown "Quiz ID is required and must be a number"
    else if quizEndpointStatus store n = 200 then .success
    else .thrown "HTTP 404: Not Found"
  | _ => .thrown "Quiz ID is required and must be a number"

/-- A backend response to `POST /generate_quiz`, reduced to what claim C2
observes: a rejection with a status code and message, or acceptance into the
generation pipeline. -/
inductive GenerateQuizResponse where
  | rejected (status : Nat) (message : String)
  | accepted
deriving DecidableEq

/-- Modelled from the spec: the backend `POST /generate_quiz` URL validation
is not part of the repository snapshot; per the spec (§4.1, §6, §8) a url
failing the Wikipedia article shape — the same shape the frontend validator
tests — is answered with 400 and a human-readable message, before any
fetching or generation. -/
def generateQuizEndpoint (url : String) : GenerateQuizResponse :=
  if isValidWikipediaUrl url then .accepted
  else
    .rejected 400
      "Please provide a valid Wikipedia URL (e.g., https://en.wikipedia.org/wiki/Article_Name)"

/-- WHATWG URL preprocessing, step 1: remove trailing C0 controls and
spaces (the accepted strings never have removable leading characters, since
they start with a letter of the scheme). -/
def trimTrailing (l : List Char) : List Char :=
  (l.reverse.dropWhile (fun c => c.toNat ≤ 0x20)).reverse

/-- WHATWG URL preprocessing, step 2: remove every ASCII tab and newline. -/
def stripTabNL (l : List Char) : List Char :=
  l.filter (fun c => !(c = '\t' || c = '\n' || c = '\r'))

def cleanse (l : List Char) : List Char :=
  stripTabNL (trimTrailing l)

/-- The path area of a URL ends at the first `?` (query) or `#` (fragment). -/
def upToQuery (l : List Char) : List Char :=
  l.takeWhile (fun c => !(c = '?' || c = '#'))

/-- In a special-scheme (http/https) URL, `\` is treated as a path separator
just like `/`. -/
def isSep (c : Char) : Bool :=
  c = '/' || c = '\\'

/-- Split a character list at every separator; always returns at least one
(possibly empty) piece, like JavaScript's `String.prototype.split`. -/
def splitBy (p : Char → Bool) : List Char → List (List Char)
  | [] => [[]]
  | c :: cs =>
    match splitBy p cs with
    | [] => [[]]
    | s :: ss => if p c then [] :: s :: ss else (c :: s) :: ss

def lowSeg (seg : List Char) : List Char :=
  seg.map Char.toLower

/-- WHATWG single-dot path segment: `.` or a case variant of `%2e`. -/
def isSingleDot (seg : List Char) : Bool :=
  lowSeg seg = ['.'] || lowSeg seg = ('%' :: ['2', 'e'])

/-- WHATWG double-dot path segment: `..` or any variant with `%2e`. -/
def isDoubleDot (seg : List Char) : Bool :=
  lowSeg seg = ['.', '.'] || lowSeg seg = ('.' :: '%' :: ['2', 'e']) ||
  lowSeg seg = ('%' :: ['2', 'e', '.']) || lowSeg seg = ('%' :: ['2', 'e', '%', '2', 'e'])

def hexUpper (n : Nat) : Char :=
  ("0123456789ABCDEF").data.getD n '0'

/-- UTF-8 bytes of a code point, for percent-encoding. -/
def utf8Bytes (n : Nat) : List Nat :=
  if n < 0x80 then [n]
  else if n < 0x800 then [0xC0 + n / 64, 0x80 + n % 64]
  else if n < 0x10000 then [0xE0 + n / 4096, 0x80 + (n / 64) % 64, 0x80 + n % 64]
  else [0xF0 + n / 262144, 0x80 + (n / 4096) % 64, 0x80 + (n / 64) % 64, 0x80 + n % 64]

/-- The WHATWG path percent-encode set: C0 controls, space, `"`, `#`, `<`,
`>`, `?`, backtick (0x60), curly braces (0x7B, 0x7D), DEL and all
non-ASCII. -/
def inPathEncodeSet (c : Char) : Bool :=
  c.toNat ≤ 0x20 || 0x7F ≤ c.toNat ||
  c.toNat = 0x22 || c.toNat = 0x23 || c.toNat = 0x3C || c.toNat = 0x3E ||
  c.toNat = 0x3F || c.toNat = 0x60 || c.toNat = 0x7B || c.toNat = 0x7D

def encodeByte (b : Nat) : List Char :=
  ['%', hexUpper (b / 16), hexUpper (b % 16)]

/-- Percent-encode one path segment with the path percent-encode set (an
existing `%` is copied verbatim, whether or not valid hex follows). -/
def encodeSeg (seg : List Char) : List Char :=
  seg.flatMap (fun c => if inPathEncodeSet c then (utf8Bytes c.toNat).flatMap encodeByte else [c])

/-- WHATWG path-state processing of the segment list: double-dot segments
pop the previous segment, single-dot segments are dropped, and when they are
the last segment they additionally append an empty segment; every kept
segment is percent-encoded. -/
def normGo : List (List Char) → List (List Char) → List (List Char)
  | path, [] => path
  | path, [seg] =>
    if isDoubleDot seg then path.dropLast ++ [[]]
    else if isSingleDot seg then path ++ [[]]
    else path ++ [encodeSeg seg]
  | path, seg :: rest =>
    if isDoubleDot seg then normGo path.dropLast rest
    else if isSingleDot seg then normGo path rest
    else normGo (path ++ [encodeSeg seg]) rest

/-- WHATWG path serialisation: `/` before every segment. -/
def renderPath (segs : List (List Char)) : List Char :=
  segs.flatMap (fun seg => '/' :: seg)

/-- Model of `new URL(s).pathname` for strings whose prefix parses as
`http(s)://xx(x).wikipedia.org/…` — the only strings on which
`extractArticleTitle` reaches the URL constructor.  The remainder after the
host is cleansed, cut at the query or fragment, split at separators, and
dot-normalised.  For other strings the constructor's behaviour is not
modelled (`none`). -/
def urlPathname (s : String) : Option (List Char) :=
  match hostTail s with
  | some ('/' :: rest) =>
    some (renderPath (normGo [] (splitBy isSep (upToQuery (cleanse rest)))))
  | _ => none

def hexVal (c : Char) : Option Nat :=
  if '0' ≤ c ∧ c ≤ '9' then some (c.toNat - 48)
  else if 'A' ≤ c ∧ c ≤ 'F' then some (c.toNat - 55)
  else if 'a' ≤ c ∧ c ≤ 'f' then some (c.toNat - 87)
  else none

/-- A lexical token of a percent-encoded string: a raw character or a
`%XX` byte. -/
inductive UriTok where
  | raw (c : Char)
  | byte (b : Nat)
deriving DecidableEq

/-- Tokenise for `decodeURIComponent`: every `%` must be followed by two
hex digits, otherwise the decode throws (`none`). -/
def tokenize : List Char → Option (List UriTok)
  | [] => some []
  | '%' :: rest =>
    match rest with
    | h :: lo :: rest2 =>
      match hexVal h, hexVal lo with
      | some a, some b => (tokenize rest2).map (UriTok.byte (16 * a + b) :: ·)
      | _, _ => none
    | _ => none
  | c :: rest => (tokenize rest).map (UriTok.raw c :: ·)

def isCont (b : Nat) : Bool :=
  decide (0x80 ≤ b) && decide (b ≤ 0xBF)

/-- ECMAScript `Decode`: consecutive percent-escaped bytes must form a valid
UTF-8 encoding of a code point (no overlong forms, no surrogates, in range),
otherwise a `URIError` is thrown (`none`); raw characters pass through. -/
def decodeTokens : List UriTok → Option (List Char)
  | [] => some []
  | .raw c :: t => (decodeTokens t).map (c :: ·)
  | .byte b :: t =>
    if b < 0x80 then (decodeTokens t).map (Char.ofNat b :: ·)
    else if b < 0xC0 then none
    else if b ≤ 0xDF then
      match t with
      | .byte b2 :: t2 =>
        if isCont b2 && decide (0x80 ≤ (b - 0xC0) * 64 + (b2 - 0x80)) then
          (decodeTokens t2).map (Char.ofNat ((b - 0xC0) * 64 + (b2 - 0x80)) :: ·)
        else none
      | _ => none
    else if b ≤ 0xEF then
      match t with
      | .byte b2 :: .byte b3 :: t2 =>
        if isCont b2 && isCont b3 &&
            decide (0x800 ≤ (b - 0xE0) * 4096 + (b2 - 0x80) * 64 + (b3 - 0x80)) &&
            !(decide (0xD800 ≤ (b - 0xE0) * 4096 + (b2 - 0x80) * 64 + (b3 - 0x80)) &&
              decide ((b - 0xE0) * 4096 + (b2 - 0x80) * 64 + (b3 - 0x80) ≤ 0xDFFF)) then
          (decodeTokens t2).map
            (Char.ofNat ((b - 0xE0) * 4096 + (b2 - 0x80) * 64 + (b3 - 0x80)) :: ·)
        else none
      | _ => none
    else if b ≤ 0xF7 then
      match t with
      | .byte b2 :: .byte b3 :: .byte b4 :: t2 =>
        if isCont b2 && isCont b3 && isCont b4 &&
            decide (0x10000 ≤
              (b - 0xF0) * 262144 + (b2 - 0x80) * 4096 + (b3 - 0x80) * 64 + (b4 - 0x80)) &&
            decide ((b - 0xF0) * 262144 + (b2 - 0x80) * 4096 + (b3 - 0x80) * 64 + (b4 - 0x80)
              ≤ 0x10FFFF) then
          (decodeTokens t2).map
            (Char.ofNat
              ((b - 0xF0) * 262144 + (b2 - 0x80) * 4096 + (b3 - 0x80) * 64 + (b4 - 0x80)) :: ·)
        else none
      | _ => none
    else none

/-- Model of JavaScript `decodeURIComponent` (a code point beyond the basic
plane is one Lean `Char` where JavaScript would store a surrogate pair). -/
def decodeURIComponent (l : List Char) : Option (List Char) :=
  match tokenize l with
  | none => none
  | some toks => decodeTokens toks

/-- `.replace(/_/g, ' ')`. -/
def replaceUnderscores (l : List Char) : List Char :=
  l.map (fun c => if c = '_' then ' ' else c)

/-- `pathParts[pathParts.length - 1]` after `pathname.split('/')`. -/
def lastPart (p : List Char) : List Char :=
  (splitBy (fun c => c = '/') p).getLastD []

/-- Embedding of `extractArticleTitle` from `frontend/src/services/api.js`:
reject invalid strings with `''`; otherwise take the last `/`-separated part
of `new URL(url).pathname`, percent-decode it and replace underscores by
spaces; any exception inside the `try` (URL construction or decoding) yields
`''`. -/
def extractArticleTitle (s : String) : String :=
  if isValidWikipediaUrl s then
    match urlPathname s with
    | some p =>
      match decodeURIComponent (lastPart p) with
      | some d => String.mk (replaceUnderscores d)
      | none => ""
    | none => ""
  else ""

example : extractArticleTitle "https://en.wikipedia.org/wiki/Albert_Einstein" = "Albert Einstein" := by decide
example : extractArticleTitle "not-a-url" = "" := by decide
example : extractArticleTitle "https://en.wikipedia.org/wiki/%C3%A9" = "é" := by decide
example : extractArticleTitle "https://en.wikipedia.org/wiki/%zz" = "" := by decide
example : extractArticleTitle "https://en.wikipedia.org/wiki/.." = "" := by decide
example : extractArticleTitle "https://en.wikipedia.org/wiki/Tree?x=1" = "Tree" := by decide
example : extractArticleTitle "https://en.wikipedia.org/wiki/A%20B" = "A B" := by decide
example : extractArticleTitle "https://en.wikipedia.org/wiki/a b" = "a b" := by decide
example : extractArticleTitle "https://en.wikipedia.org/wiki/../wiki/X" = "X" := by decide
example : extractArticleTitle "https://en.wikipedia.org/wiki/A/B" = "B" := by decide

/-- A quiz question as the frontend consumes it (fields of the LLM payload;
`difficulty` is kept as a plain string, as in the JSON). -/
structure Question where
  question : String
  options : List String
  answer : String
  difficulty : String
  explanation : String
deriving DecidableEq

/-- Embedding of `calculateScore` from `QuizDisplay.jsx`: with `quizData.quiz`
absent the score is `0`; otherwise one point per index whose entry in the
`selectedAnswers` map (`none` = no selection) strictly equals the question's
`answer` string. -/
def calculateScore (quiz : Option (List Question)) (sel : Nat → Option String) : Nat :=
  match quiz with
  | none => 0
  | some qs =>
    (qs.enum).foldl (fun c iq => if sel iq.1 = some iq.2.answer then c + 1 else c) 0

/-- `String.fromCharCode(65 + optionIndex)`: the display letter of option
`j` (`A` for 0, …, `D` for 3). -/
def optionLetter (j : Nat) : String :=
  String.mk [Char.ofNat (65 + j)]

/-- `question.answer === optionLetter` from `QuizDisplay.jsx`: whether the
display marks option `j` of `q` as the correct one (and colours it green). -/
def isCorrectOption (q : Question) (j : Nat) : Bool :=
  q.answer = optionLetter j

/-- Claim C3's notion of the `answer` resolving to option `j`: either by
value (it equals the `j`-th option string) or by the `A`/`B`/`C`/`D` label
convention. -/
def resolvesTo (q : Question) (j : Nat) : Bool :=
  (q.options.get? j = some q.answer) || (q.answer = optionLetter j)

/-- `ndl` is a prefix of `hay`. -/
def leadsWith : List Char → List Char → Bool
  | _, [] => true
  | [], _ :: _ => false
  | h :: hs, n :: ns => h = n && leadsWith hs ns

/-- `hay.includes(ndl)` on character lists. -/
def containsSub : List Char → List Char → Bool
  | [], ndl => leadsWith [] ndl
  | c :: t, ndl => leadsWith (c :: t) ndl || containsSub t ndl

/-- `question.explanation.toLowerCase().includes(section.toLowerCase())`,
with ASCII lower-casing standing in for the JavaScript `toLowerCase`. -/
def mentionsSection (expl sec : String) : Bool :=
  containsSub (expl.data.map Char.toLower) (sec.data.map Char.toLower)

/-- The first section, in the order of the sections list, whose name occurs
in the question's explanation; `none` when the explanation is empty (the
guard `if (question.explanation)`) or no section matches. -/
def sectionFor (sections : List String) (q : Question) : Option String :=
  if q.explanation = "" then none
  else sections.find? (fun sec => mentionsSection q.explanation sec)

/-- `grouped[section].push(entry)` on a JavaScript object modelled as an
association list in key-insertion order: append to the existing key's list,
or add the key at the end. -/
def pushKey (g : List (String × List (Nat × Question))) (k : String)
    (e : Nat × Question) : List (String × List (Nat × Question)) :=
  match g with
  | [] => [(k, [e])]
  | (k0, l0) :: rest =>
    if k0 = k then (k0, l0 ++ [e]) :: rest else (k0, l0) :: pushKey rest k e

/-- `grouped['General'] = unmatched`: overwrite the key's value in place
when the key exists, else append it. -/
def setKey (g : List (String × List (Nat × Question))) (k : String)
    (v : List (Nat × Question)) : List (String × List (Nat × Question)) :=
  match g with
  | [] => [(k, v)]
  | (k0, l0) :: rest =>
    if k0 = k then (k0, v) :: rest else (k0, l0) :: setKey rest k v

/-- One `forEach` step of `groupQuestionsBySection`: a question whose
explanation mentions a section is pushed (with its original index) under the
first such section; otherwise it joins the `unmatched` list. -/
def groupStep (sections : List String)
    (acc : List (String × List (Nat × Question)) × List (Nat × Question))
    (e : Nat × Question) :
    List (String × List (Nat × Question)) × List (Nat × Question) :=
  match sectionFor sections e.2 with
  | some sec => (pushKey acc.1 sec e, acc.2)
  | none => (acc.1, acc.2 ++ [e])

/-- Embedding of `groupQuestionsBySection` from `QuizDisplay.jsx` for
present `quiz` and `sections` fields (with either absent the function
returns a single `'All Questions'` passthrough group, outside this model):
group the questions in order, then, when any question is unmatched, assign
the whole unmatched list to the key `'General'`. -/
def groupQuestionsBySection (quiz : List Question) (sections : List String) :
    List (String × List (Nat × Question)) :=
  let p := (quiz.enum).foldl (groupStep sections) ([], [])
  if p.2 = [] then p.1 else setKey p.1 "General" p.2

/-- Total number of question entries over all groups. -/
def groupSizes (g : List (String × List (Nat × Question))) : Nat :=
  (g.map (fun kv => kv.2.length)).sum

/-- The group a question belongs to according to the code's matching rule:
its first matching section, else `'General'`. -/
def targetKey (sections : List String) (q : Question) : String :=
  (sectionFor sections q).getD "General"

example :
    groupQuestionsBySection
      [⟨"q0", [], "A", "easy", "about General things"⟩,
       ⟨"q1", [], "A", "easy", "zzz"⟩]
      ["General"] =
    [("General", [(1, ⟨"q1", [], "A", "easy", "zzz"⟩)])] := by decide

example :
    groupQuestionsBySection
      [⟨"q0", [], "A", "easy", "about History things"⟩,
       ⟨"q1", [], "A", "easy", "zzz"⟩]
      ["History"] =
    [("History", [(0, ⟨"q0", [], "A", "easy", "about History things"⟩)]),
     ("General", [(1, ⟨"q1", [], "A", "easy", "zzz"⟩)])] := by decide

/-- Whether a `/generate_quiz` response is a 400 rejection carrying a
non-empty message. -/
def rejectedWithMessage (r : GenerateQuizResponse) : Bool :=
  match r with
  | .rejected st m => st = 400 && !(m = "")
  | .accepted => false

/-- **C1 (counterexample).** The string `https://en.wikipedia.org/WIKI/Test`
is not of the claimed shape — its fixed `/wiki/` part is uppercase, and the
claim allows case variation only in the scheme and the subdomain — yet
`isValidWikipediaUrl` accepts it, because the regex's `i` flag applies to
the whole pattern.  The claim's "for every string not of that shape it
returns false" therefore fails here. -/
theorem c1_counterexample :
    claimShapeC1 "https://en.wikipedia.org/WIKI/Test" = false ∧
    isValidWikipediaUrl "https://en.wikipedia.org/WIKI/Test" = true := by decide

/-- **C1 (amended).** `isValidWikipediaUrl` accepts exactly the strings that
begin with `http(s)://<2-3 ASCII letters>.wikipedia.org/wiki/` followed by
at least one character that is not a line terminator, where the entire
prefix — not only scheme and subdomain — is matched ASCII-case-insensitively,
and where arbitrary characters (further slashes included) may follow,
because the regex is a prefix match with no end anchor. -/
theorem c1_url_validator_shape (s : String) :
    isValidWikipediaUrl s = true ↔
      ∃ t1 t2 t3 c rest,
        s.data = t1 ++ t2 ++ '.' :: (t3 ++ c :: rest) ∧
        schemeOk t1 = true ∧ subOk t2 = true ∧
        matchesPat ("wikipedia.org/wiki/").data t3 = true ∧
        isLineTerm c = false :=
  isValidWikipediaUrl_eq_true_iff s

/-- **C2.** Every string of the spec's rejection table is rejected by the
validator, and a `/generate_quiz` submission of it is answered with a 400
invalid-URL rejection carrying a non-empty message, never with a quiz. -/
theorem c2_rejection_table :
    (isValidWikipediaUrl "" = false ∧
      rejectedWithMessage (generateQuizEndpoint "") = true) ∧
    (isValidWikipediaUrl "not-a-url" = false ∧
      rejectedWithMessage (generateQuizEndpoint "not-a-url") = true) ∧
    (isValidWikipediaUrl "http://google.com" = false ∧
      rejectedWithMessage (generateQuizEndpoint "http://google.com") = true) ∧
    (isValidWikipediaUrl "https://wikipedia.org" = false ∧
      rejectedWithMessage (generateQuizEndpoint "https://wikipedia.org") = true) ∧
    (isValidWikipediaUrl "https://en.wikipedia.org/" = false ∧
      rejectedWithMessage (generateQuizEndpoint "https://en.wikipedia.org/") = true) ∧
    (isValidWikipediaUrl "https://en.wikipedia.org/wiki/" = false ∧
      rejectedWithMessage (generateQuizEndpoint "https://en.wikipedia.org/wiki/") = true) ∧
    (isValidWikipediaUrl "ftp://en.wikipedia.org/wiki/Test" = false ∧
      rejectedWithMessage (generateQuizEndpoint "ftp://en.wikipedia.org/wiki/Test") = true) := by
  decide

/-- **C5 (counterexample).** The empty string is a string failing the
Wikipedia URL shape, but `generateQuiz` raises the required-field error for
it, not the invalid-Wikipedia-URL error, because the falsy check `!url`
catches `''` first. -/
theorem c5_counterexample :
    isValidWikipediaUrl "" = false ∧
    generateQuiz (.vStr "") ≠ .errInvalidUrl ∧
    generateQuiz (.vStr "") = .errRequired := by decide

/-- **C5 (amended).** `generateQuiz` validates before any request is sent:
a missing, null, non-string — or empty-string — url raises the
required-field error; a non-empty string failing the Wikipedia URL shape
raises the invalid-URL error; and no request is ever issued for a string
failing the shape. -/
theorem c5_pre_request_validation :
    (∀ v : JSValue, (∀ s, v ≠ .vStr s) → generateQuiz v = .errRequired) ∧
    generateQuiz (.vStr "") = .errRequired ∧
    (∀ s, s ≠ "" → isValidWikipediaUrl s = false →
      generateQuiz (.vStr s) = .errInvalidUrl) ∧
    (∀ s u, isValidWikipediaUrl s = false → generateQuiz (.vStr s) ≠ .request u) := by
  refine ⟨?_, by decide, ?_, ?_⟩
  · intro v hv
    cases v with
    | vStr s => exact absurd rfl (hv s)
    | vNull => rfl
    | vUndefined => rfl
    | vBool b => rfl
    | vNum n => rfl
  · intro s hs hv
    simp [generateQuiz, hs, hv]
  · intro s u hv h
    by_cases hs : s = ""
    · subst hs; simp [generateQuiz] at h
    · simp [generateQuiz, hs, hv] at h

theorem c5_witness :
    generateQuiz .vNull = .errRequired ∧
    generateQuiz (.vStr "not-a-url") = .errInvalidUrl ∧
    generateQuiz (.vStr "ftp://en.wikipedia.org/wiki/Test") ≠
      .request "ftp://en.wikipedia.org/wiki/Test" :=
  ⟨c5_pre_request_validation.1 .vNull (fun _ h => JSValue.noConfusion h),
   c5_pre_request_validation.2.2.1 "not-a-url" (by decide) (by decide),
   c5_pre_request_validation.2.2.2 "ftp://en.wikipedia.org/wiki/Test" _ (by decide)⟩

/-- **C6.** Fetching a quiz by id 0, id -1, or a non-numeric id never
succeeds, whatever the store contains: the client guard throws for `0` and
for every non-number, and the backend answers every non-positive id with a
non-200 status, which `apiRequest` turns into a thrown error. -/
theorem c6_bad_ids_never_succeed (store : Int → Bool) :
    getQuizById store (.vNum 0) ≠ .success ∧
    getQuizById store (.vNum (-1)) ≠ .success ∧
    (∀ v : JSValue, (∀ n, v ≠ .vNum n) → getQuizById store v ≠ .success) := by
  refine ⟨by simp [getQuizById], ?_, ?_⟩
  · simp [getQuizById, quizEndpointStatus]
  · intro v hv
    cases v with
    | vNum n => exact absurd rfl (hv n)
    | vNull => simp [getQuizById]
    | vUndefined => simp [getQuizById]
    | vBool b => simp [getQuizById]
    | vStr s => simp [getQuizById]

theorem c6_witness :
    getQuizById (fun _ => true) (.vNum 0) ≠ .success ∧
    getQuizById (fun _ => true) (.vStr "abc") ≠ .success :=
  ⟨(c6_bad_ids_never_succeed (fun _ => true)).1,
   (c6_bad_ids_never_succeed (fun _ => true)).2.2 (.vStr "abc")
     (fun _ h => JSValue.noConfusion h)⟩

/-- **C8.** `isValidWikipediaUrl`, viewed at the JavaScript call boundary,
is a total boolean predicate: on every value it evaluates to `true` or
`false` without raising; every non-string value yields `false`, and on
strings it agrees with the string-level predicate. -/
theorem c8_total_predicate (v : JSValue) :
    (isValidWikipediaUrlJS v = true ∨ isValidWikipediaUrlJS v = false) ∧
    ((∀ s, v ≠ .vStr s) → isValidWikipediaUrlJS v = false) ∧
    (∀ s, v = .vStr s → isValidWikipediaUrlJS v = isValidWikipediaUrl s) := by
  refine ⟨?_, ?_, ?_⟩
  · cases h : isValidWikipediaUrlJS v
    · right; rfl
    · left; rfl
  · intro hv
    cases v with
    | vStr s => exact absurd rfl (hv s)
    | vNull => rfl
    | vUndefined => rfl
    | vBool b => rfl
    | vNum n => rfl
  · rintro s rfl
    by_cases hs : s = ""
    · subst hs; decide
    · simp [isValidWikipediaUrlJS, hs]

theorem c8_witness :
    isValidWikipediaUrlJS .vNull = false ∧
    isValidWikipediaUrlJS (.vStr "https://en.wikipedia.org/wiki/Haiku") =
      isValidWikipediaUrl "https://en.wikipedia.org/wiki/Haiku" :=
  ⟨(c8_total_predicate .vNull).2.1 (fun _ h => JSValue.noConfusion h),
   (c8_total_predicate (.vStr "https://en.wikipedia.org/wiki/Haiku")).2.2 _ rfl⟩

/-- **C10.** `calculateScore` returns exactly the number of question indices
whose selection strictly equals the question's `answer`; hence the score is
at most the number of questions, and it equals that number exactly when
every question's selection equals its answer. -/
theorem c10_score_counts (qs : List Question) (sel : Nat → Option String) :
    calculateScore (some qs) sel =
      ((qs.enum).filter (fun p => decide (sel p.1 = some p.2.answer))).length ∧
    calculateScore (some qs) sel ≤ qs.length ∧
    (calculateScore (some qs) sel = qs.length ↔
      ∀ p ∈ qs.enum, sel p.1 = some p.2.answer) := by
  have key : ∀ (l : List (Nat × Question)) (n : Nat),
      l.foldl (fun c iq => if sel iq.1 = some iq.2.answer then c + 1 else c) n =
      n + (l.filter (fun p => decide (sel p.1 = some p.2.answer))).length := by
    intro l
    induction l with
    | nil => intro n; simp
    | cons x xs ih =>
      intro n
      by_cases h : sel x.1 = some x.2.answer
      · simp only [List.foldl_cons, if_pos h, ih, List.filter_cons,
          decide_eq_true h]
        simp
        omega
      · simp only [List.foldl_cons, if_neg h, ih, List.filter_cons,
          decide_eq_false h]
        simp
  have hscore : calculateScore (some qs) sel =
      ((qs.enum).filter (fun p => decide (sel p.1 = some p.2.answer))).length := by
    simpa [calculateScore] using key qs.enum 0
  refine ⟨hscore, ?_, ?_⟩
  · rw [hscore]
    calc ((qs.enum).filter _).length ≤ (qs.enum).length :=
          List.length_filter_le _ _
      _ = qs.length := List.enum_length
  · rw [hscore]
    constructor
    · intro h
      have hlen : ((qs.enum).filter
          (fun p => decide (sel p.1 = some p.2.answer))).length =
          (qs.enum).length := by rw [h, List.enum_length]
      have heq := (List.filter_sublist (l := qs.enum)
        (p := fun p => decide (sel p.1 = some p.2.answer))).eq_of_length hlen
      intro p hp
      have := List.of_mem_filter (a := p) (by rw [heq]; exact hp)
      simpa using this
    · intro h
      have heq : (qs.enum).filter (fun p => decide (sel p.1 = some p.2.answer)) =
          qs.enum := List.filter_eq_self.mpr (fun a ha => by simpa using h a ha)
      rw [heq, List.enum_length]

/-- The question claim C3's counterexample uses: its `answer` is stored by
value (`"Paris"` equals option 1) rather than by letter. -/
def parisQuestion : Question :=
  ⟨"Capital of France?", ["London", "Paris", "Berlin", "Rome"], "Paris",
    "easy", "Geography."⟩

/-- **C3 (counterexample).** For a question whose `answer` is stored by
value, the answer resolves to exactly one of the four options (option 1),
yet the display marks no option as correct and a selection of that very
option is not counted: the claim's "treated as correct exactly when the
answer resolves to option i" fails. -/
theorem c3_counterexample :
    resolvesTo parisQuestion 1 = true ∧
    (∀ j < 4, j ≠ 1 → resolvesTo parisQuestion j = false) ∧
    isCorrectOption parisQuestion 1 = false ∧
    calculateScore (some [parisQuestion]) (fun _ => some (optionLetter 1)) = 0 := by
  decide

/-- **C3 (amended).** The display and the scoring recognise answers only by
the option-label convention: option `j` is marked correct exactly when the
`answer` string equals the letter of `j`; at most one of the four options is
marked; and submitting option `j`'s letter scores exactly when option `j` is
marked.  An answer stored by value — equal to an option string but not to a
letter — is never marked and never scored. -/
theorem c3_answer_marking (q : Question) (i j : Nat) (hi : i ≤ 3) (hj : j ≤ 3) :
    (isCorrectOption q j = true ↔ q.answer = optionLetter j) ∧
    (isCorrectOption q i = true → isCorrectOption q j = true → i = j) ∧
    (calculateScore (some [q]) (fun _ => some (optionLetter j)) = 1 ↔
      isCorrectOption q j = true) := by
  refine ⟨by simp [isCorrectOption], ?_, ?_⟩
  · intro h1 h2
    simp only [isCorrectOption, decide_eq_true_eq] at h1 h2
    have hij : optionLetter i = optionLetter j := by rw [← h1, ← h2]
    interval_cases i <;> interval_cases j <;>
      first
        | rfl
        | exact absurd hij (by decide)
  · simp only [calculateScore, List.enum_cons, List.enum_nil, List.enumFrom_nil,
      List.foldl_cons, List.foldl_nil, isCorrectOption]
    constructor
    · intro h
      by_cases hq : some (optionLetter j) = some q.answer
      · simp only [Option.some.injEq] at hq
        simp [hq]
      · rw [if_neg hq] at h
        simp at h
    · intro h
      simp only [decide_eq_true_eq] at h
      rw [if_pos (by rw [h])]

theorem c3_witness :
    isCorrectOption ⟨"q", ["a", "b", "c", "d"], "B", "easy", "e"⟩ 1 = true ∧
    calculateScore (some [⟨"q", ["a", "b", "c", "d"], "B", "easy", "e"⟩])
      (fun _ => some (optionLetter 1)) = 1 := by
  have h := c3_answer_marking ⟨"q", ["a", "b", "c", "d"], "B", "easy", "e"⟩ 0 1
    (by decide) (by decide)
  exact ⟨h.1.mpr (by decide), h.2.2.mpr (h.1.mpr (by decide))⟩

/-- The scheme piece before the first `:`, and the remainder after it;
`none` when the string has no `:`. -/
def splitColon : List Char → Option (List Char × List Char)
  | [] => none
  | c :: cs =>
    if c = ':' then some ([], cs)
    else
      match splitColon cs with
      | some p => some (c :: p.1, p.2)
      | none => none

/-- The host piece before the first `/`, and the remainder from that `/`. -/
def takeHost : List Char → List Char × List Char
  | [] => ([], [])
  | c :: cs =>
    if c = '/' then ([], c :: cs)
    else
      let p := takeHost cs
      (c :: p.1, p.2)

def isHostChar (c : Char) : Bool :=
  c.isAlphanum || c = '.' || c = '-'

/-- Modelled from the spec: the phrase "any string failing basic URL parse"
names no parser in the repository (the frontend calls the host environment's
`new URL`), so a basic parse is modelled: a non-empty all-letter scheme
before the first `:`, the separator `//`, and a non-empty host of letters,
digits, dots and hyphens up to the first `/`; the rest is the unconstrained
path-and-after part. -/
def basicUrlParse (s : String) : Option (String × String × String) :=
  match splitColon s.data with
  | none => none
  | some (sch, rest) =>
    if sch ≠ [] ∧ sch.all (fun c => c.isAlpha) then
      match rest with
      | c1 :: c2 :: rest2 =>
        if c1 = '/' ∧ c2 = '/' then
          let hp := takeHost rest2
          if hp.1 ≠ [] ∧ hp.1.all isHostChar then
            some (String.mk sch, String.mk hp.1, String.mk hp.2)
          else none
        else none
      | _ => none
    else none

example : basicUrlParse "https://en.wikipedia.org/wiki/Haiku" =
    some ("https", "en.wikipedia.org", "/wiki/Haiku") := by decide
example : basicUrlParse "not-a-url" = none := by decide
example : basicUrlParse "javascript:alert(1)" = none := by decide

theorem splitColon_append {t : List Char} (ht : ':' ∉ t) (r : List Char) :
    splitColon (t ++ ':' :: r) = some (t, r) := by
  induction t with
  | nil => simp [splitColon]
  | cons c cs ih =>
    have hc : ¬(c = ':') := fun h => ht (by simp [h])
    have hcs : ':' ∉ cs := fun h => ht (by simp [h])
    simp [splitColon, hc, ih hcs]

theorem takeHost_append {t : List Char} (ht : '/' ∉ t) (r : List Char) :
    takeHost (t ++ '/' :: r) = (t, '/' :: r) := by
  induction t with
  | nil => simp [takeHost]
  | cons c cs ih =>
    have hc : ¬(c = '/') := fun h => ht (by simp [h])
    have hcs : '/' ∉ cs := fun h => ht (by simp [h])
    simp [takeHost, hc, ih hcs]

theorem isAlpha_of_toLower {c p : Char} (h : c.toLower = p) (hp : p.isAlpha = true) :
    c.isAlpha = true := by
  unfold Char.toLower at h
  simp only at h
  split at h
  · rename_i hc
    have hb1 : (65 : UInt32) ≤ c.val := by
      show (65 : UInt32).toNat ≤ c.val.toNat
      simpa using hc.1
    have hb2 : c.val ≤ (90 : UInt32) := by
      show c.val.toNat ≤ (90 : UInt32).toNat
      simpa using hc.2
    simp [Char.isAlpha, Char.isUpper, hb1, hb2]
  · subst h
    exact hp

theorem alpha_ne_symbol {d x : Char} (hd : d.isAlpha = true)
    (hx : x.isAlpha = false) : d ≠ x := by
  intro h
  subst h
  rw [hd] at hx
  cases hx

theorem matchesPat_length {p : List Char} :
    ∀ {t : List Char}, matchesPat p t = true → t.length = p.length := by
  induction p with
  | nil =>
    intro t h
    cases t with
    | nil => rfl
    | cons c cs => simp [matchesPat] at h
  | cons pc ps ih =>
    intro t h
    cases t with
    | nil => simp [matchesPat] at h
    | cons c cs =>
      simp only [matchesPat, Bool.and_eq_true] at h
      simp [ih h.2]

theorem matchesPat_host_chars {p : List Char}
    (hp : ∀ pc ∈ p, pc.isAlpha = true ∨ pc = '.') :
    ∀ {t : List Char}, matchesPat p t = true →
      ∀ d ∈ t, d.isAlpha = true ∨ d = '.' := by
  induction p with
  | nil =>
    intro t h d hd
    cases t with
    | nil => simp at hd
    | cons c cs => simp [matchesPat] at h
  | cons pc ps ih =>
    intro t h d hd
    cases t with
    | nil => simp [matchesPat] at h
    | cons c cs =>
      simp only [matchesPat, Bool.and_eq_true] at h
      rcases List.mem_cons.mp hd with rfl | hd2
      · rcases hp pc (by simp) with hA | hdot
        · exact Or.inl (isAlpha_of_toLower ((patCh_of_alpha hA).mp h.1) hA)
        · subst hdot
          exact Or.inr ((patCh_of_not_alpha (by decide)).mp h.1)
      · exact ih (fun q hq => hp q (by simp [hq])) h.2 d hd2

theorem matchesPat_alpha_chars {p : List Char}
    (hp : ∀ pc ∈ p, pc.isAlpha = true) :
    ∀ {t : List Char}, matchesPat p t = true → ∀ d ∈ t, d.isAlpha = true := by
  induction p with
  | nil =>
    intro t h d hd
    cases t with
    | nil => simp at hd
    | cons c cs => simp [matchesPat] at h
  | cons pc ps ih =>
    intro t h d hd
    cases t with
    | nil => simp [matchesPat] at h
    | cons c cs =>
      simp only [matchesPat, Bool.and_eq_true] at h
      rcases List.mem_cons.mp hd with rfl | hd2
      · exact isAlpha_of_toLower ((patCh_of_alpha (hp pc (by simp))).mp h.1)
          (hp pc (by simp))
      · exact ih (fun q hq => hp q (by simp [hq])) h.2 d hd2

theorem valid_implies_parse {s : String} (hv : isValidWikipediaUrl s = true) :
    ∃ x, basicUrlParse s = some x := by
  obtain ⟨t1, t2, t3, c, rest, hs, h1, h2, h3, _⟩ :=
    (isValidWikipediaUrl_eq_true_iff s).mp hv
  have hsplit : ("wikipedia.org").data ++ ("/wiki/").data =
      ("wikipedia.org/wiki/").data := by decide
  rw [← hsplit] at h3
  obtain ⟨t3a, t4, rfl, h3a, h3b⟩ := matchesPat_split _ _ h3
  have hwk : ("/wiki/").data = '/' :: ("wiki/").data := by decide
  rw [hwk] at h3b
  cases t4 with
  | nil => simp [matchesPat] at h3b
  | cons d4 ds4 =>
    simp only [matchesPat, Bool.and_eq_true] at h3b
    have hd4 : d4 = '/' := (patCh_of_not_alpha (by decide)).mp h3b.1
    subst hd4
    simp only [schemeOk, Bool.or_eq_true] at h1
    have hexists : ∃ L, t1 = L ++ [':', '/', '/'] ∧ L ≠ [] ∧
        ∀ d ∈ L, d.isAlpha = true := by
      cases h1 with
      | inl h7 =>
        obtain ⟨A, B, rfl, hA, hB⟩ :=
          matchesPat_split ['h', 't', 't', 'p'] [':', '/', '/'] h7
        have hB2 : B = [':', '/', '/'] := matchesPat_symbols (by decide) hB
        subst hB2
        refine ⟨A, rfl, ?_, matchesPat_alpha_chars (by decide) hA⟩
        intro hA0
        subst hA0
        have := matchesPat_length hA
        simp at this
      | inr h8 =>
        obtain ⟨A, B, rfl, hA, hB⟩ :=
          matchesPat_split ['h', 't', 't', 'p'] ['s', ':', '/', '/'] h8
        cases B with
        | nil => simp [matchesPat] at hB
        | cons c0 B2 =>
          simp only [matchesPat, Bool.and_eq_true] at hB
          have hB2 : B2 = [':', '/', '/'] := matchesPat_symbols (by decide) hB.2
          subst hB2
          refine ⟨A ++ [c0], by simp, by simp, ?_⟩
          intro d hd
          rcases List.mem_append.mp hd with hdA | hdc
          · exact matchesPat_alpha_chars (by decide) hA d hdA
          · simp only [List.mem_singleton] at hdc
            subst hdc
            exact isAlpha_of_toLower ((patCh_of_alpha (by decide)).mp hB.1) (by decide)
    obtain ⟨L, hL, hLne, hLalpha⟩ := hexists
    subst hL
    simp only [subOk, Bool.and_eq_true, List.all_eq_true] at h2
    have h2alpha : ∀ d ∈ t2, d.isAlpha = true := fun d hd => by
      simpa using h2.2 d hd
    have h3achars : ∀ d ∈ t3a, d.isAlpha = true ∨ d = '.' :=
      matchesPat_host_chars (by decide) h3a
    have hcolonL : ':' ∉ L :=
      fun hmem => absurd (hLalpha ':' hmem) (by decide)
    have hshape : s.data =
        L ++ ':' :: ('/' :: '/' ::
          ((t2 ++ '.' :: t3a) ++ '/' :: (ds4 ++ c :: rest))) := by
      rw [hs]; simp [List.append_assoc]
    have hsplitc : splitColon s.data =
        some (L, '/' :: '/' :: ((t2 ++ '.' :: t3a) ++ '/' :: (ds4 ++ c :: rest))) := by
      rw [hshape]
      exact splitColon_append hcolonL _
    have hHostSlash : '/' ∉ t2 ++ '.' :: t3a := by
      intro hmem
      rcases List.mem_append.mp hmem with hm2 | hm3
      · exact absurd (h2alpha '/' hm2) (by decide)
      · rcases List.mem_cons.mp hm3 with hdot | hm3a
        · exact absurd hdot (by decide)
        · rcases h3achars '/' hm3a with hA | hdot
          · exact absurd hA (by decide)
          · exact absurd hdot (by decide)
    have htake : takeHost ((t2 ++ '.' :: t3a) ++ '/' :: (ds4 ++ c :: rest)) =
        (t2 ++ '.' :: t3a, '/' :: (ds4 ++ c :: rest)) :=
      takeHost_append hHostSlash _
    have hHostChars : ∀ d ∈ t2 ++ '.' :: t3a, isHostChar d = true := by
      intro d hd
      rcases List.mem_append.mp hd with hm2 | hm3
      · simp [isHostChar, Char.isAlphanum, h2alpha d hm2]
      · rcases List.mem_cons.mp hm3 with rfl | hm3a
        · decide
        · rcases h3achars d hm3a with hA | rfl
          · simp [isHostChar, Char.isAlphanum, hA]
          · decide
    refine ⟨(String.mk L, String.mk (t2 ++ '.' :: t3a),
      String.mk ('/' :: (ds4 ++ c :: rest))), ?_⟩
    unfold basicUrlParse
    rw [hsplitc]
    dsimp only
    rw [if_pos ⟨hLne, List.all_eq_true.mpr (fun d hd => by simpa using hLalpha d hd)⟩]
    rw [if_pos ⟨rfl, rfl⟩]
    rw [htake]
    dsimp only
    rw [if_pos ⟨by simp, List.all_eq_true.mpr hHostChars⟩]

/-- **C4.** Every string failing the (modelled) basic URL parse is rejected
by `isValidWikipediaUrl`: equivalently, every accepted string parses as
`scheme://host/…` with an all-letter scheme and a well-formed non-empty
host. -/
theorem c4_parse_failure_rejected (s : String) (h : basicUrlParse s = none) :
    isValidWikipediaUrl s = false := by
  cases hv : isValidWikipediaUrl s
  · rfl
  · obtain ⟨x, hx⟩ := valid_implies_parse hv
    rw [hx] at h
    exact absurd h (by simp)

theorem c4_witness :
    basicUrlParse "not-a-url" = none ∧
    isValidWikipediaUrl "not-a-url" = false :=
  ⟨by decide, c4_parse_failure_rejected "not-a-url" (by decide)⟩

theorem splitBy_ne_nil (p : Char → Bool) : ∀ l, splitBy p l ≠ [] := by
  intro l
  cases l with
  | nil => simp [splitBy]
  | cons c cs =>
    unfold splitBy
    cases h : splitBy p cs with
    | nil => simp
    | cons s ss =>
      dsimp only
      by_cases hc : p c = true
      · rw [if_pos hc]; simp
      · rw [if_neg hc]; simp

theorem splitBy_no_sep {p : Char → Bool} :
    ∀ {b : List Char}, (∀ c ∈ b, p c = false) → splitBy p b = [b] := by
  intro b
  induction b with
  | nil => intro _; rfl
  | cons c cs ih =>
    intro hb
    unfold splitBy
    rw [ih (fun d hd => hb d (by simp [hd]))]
    dsimp only
    rw [if_neg (by simp [hb c (by simp)])]

theorem splitBy_sep_length {p : Char → Bool} (x : Char) (hp : p x = true)
    (b : List Char) : ∀ a, 2 ≤ (splitBy p (a ++ x :: b)).length := by
  intro a
  induction a with
  | nil =>
    simp only [List.nil_append]
    unfold splitBy
    cases h : splitBy p b with
    | nil => exact absurd h (splitBy_ne_nil p b)
    | cons s ss =>
      dsimp only
      rw [if_pos hp]
      simp
  | cons c a2 ih =>
    simp only [List.cons_append]
    unfold splitBy
    cases h : splitBy p (a2 ++ x :: b) with
    | nil => exact absurd h (splitBy_ne_nil p _)
    | cons s ss =>
      dsimp only
      rw [h] at ih
      by_cases hc : p c = true
      · rw [if_pos hc]; simp
      · rw [if_neg hc]; simpa using ih

theorem getLastD_indep {α : Type} :
    ∀ (l : List α), l ≠ [] → ∀ d1 d2 : α, l.getLastD d1 = l.getLastD d2 := by
  intro l
  induction l with
  | nil => intro h; exact absurd rfl h
  | cons a l2 ih =>
    intro _ d1 d2
    cases l2 with
    | nil => rfl
    | cons b bs =>
      have hsome : (b :: bs).getLast? = some ((b :: bs).getLast (by simp)) :=
        List.getLast?_eq_getLast _ (by simp)
      simp [List.getLastD_cons, List.getLastD_eq_getLast?, hsome]

theorem lastPart_append {seg : List Char} (hseg : ∀ ch ∈ seg, ¬(ch = '/')) :
    ∀ a, lastPart (a ++ '/' :: seg) = seg := by
  have hsegsplit : splitBy (fun c => c = '/') seg = [seg] :=
    splitBy_no_sep (fun d hd => by simpa using hseg d hd)
  intro a
  induction a with
  | nil =>
    simp only [List.nil_append]
    unfold lastPart splitBy
    rw [hsegsplit]
    dsimp only
    rw [if_pos (by simp)]
    simp [List.getLastD_cons]
  | cons c a2 ih =>
    simp only [List.cons_append]
    unfold lastPart splitBy
    cases h : splitBy (fun c => c = '/') (a2 ++ '/' :: seg) with
    | nil => exact absurd h (splitBy_ne_nil _ _)
    | cons s ss =>
      have hss : ss ≠ [] := by
        have := splitBy_sep_length (p := fun c => c = '/') '/'
          (by simp) seg a2
        rw [h] at this
        cases ss with
        | nil => simp at this
        | cons x xs => simp
      have hlast : (s :: ss).getLastD [] = seg := by
        unfold lastPart at ih
        rw [h] at ih
        exact ih
      dsimp only
      by_cases hc : (c = '/')
      · rw [if_pos (by simp [hc])]
        simpa [List.getLastD_cons] using hlast
      · rw [if_neg (by simp [hc])]
        rw [List.getLastD_cons] at hlast ⊢
        calc ss.getLastD (c :: s) = ss.getLastD s := getLastD_indep ss hss _ _
          _ = seg := hlast

/-- **C7 (counterexample).** The accepted string
`https://en.wikipedia.org/wiki/%zz` has path `/wiki/%zz`, ending in the
single non-empty segment `%zz`; but its percent-encoding is malformed, so
`decodeURIComponent` throws and `extractArticleTitle` returns `''` rather
than any decoded form of the segment: the claim's "returns that final path
segment with percent-encoding decoded" fails here. -/
theorem c7_counterexample :
    isValidWikipediaUrl "https://en.wikipedia.org/wiki/%zz" = true ∧
    urlPathname "https://en.wikipedia.org/wiki/%zz" = some (("/wiki/%zz").data) ∧
    ("/wiki/%zz").data = ("/wiki").data ++ '/' :: ("%zz").data ∧
    (∀ ch ∈ ("%zz").data, ¬(ch = '/')) ∧
    ("%zz").data ≠ [] ∧
    decodeURIComponent (("%zz").data) = none ∧
    extractArticleTitle "https://en.wikipedia.org/wiki/%zz" = "" ∧
    ¬∃ d, decodeURIComponent (("%zz").data) = some d ∧
      extractArticleTitle "https://en.wikipedia.org/wiki/%zz" =
        String.mk (replaceUnderscores d) := by
  refine ⟨by decide, by decide, by decide, by decide, by decide, by decide,
    by decide, ?_⟩
  rintro ⟨d, hd, _⟩
  rw [show decodeURIComponent (("%zz").data) = none from by decide] at hd
  exact absurd hd (by simp)

/-- **C7 (amended).** For every rejected string `extractArticleTitle`
returns the empty string; for every accepted string whose URL path ends in a
single non-empty segment, if percent-decoding of that segment succeeds the
helper returns the decoded segment with underscores replaced by spaces —
and when decoding fails (malformed percent-encoding) it returns the empty
string, as the counterexample shows. -/
theorem c7_title_extraction :
    (∀ s, isValidWikipediaUrl s = false → extractArticleTitle s = "") ∧
    (∀ (s : String) (p a seg d : List Char),
      isValidWikipediaUrl s = true →
      urlPathname s = some p →
      p = a ++ '/' :: seg →
      (∀ ch ∈ seg, ¬(ch = '/')) →
      seg ≠ [] →
      decodeURIComponent seg = some d →
      extractArticleTitle s = String.mk (replaceUnderscores d)) := by
  constructor
  · intro s hv
    unfold extractArticleTitle
    rw [hv]
    rfl
  · intro s p a seg d hv hpath hp hseg _ hdec
    unfold extractArticleTitle
    rw [if_pos hv, hpath]
    dsimp only
    rw [hp, lastPart_append hseg a, hdec]

theorem c7_witness :
    extractArticleTitle "not-a-url" = "" ∧
    extractArticleTitle "https://en.wikipedia.org/wiki/Albert_Einstein" =
      "Albert Einstein" := by
  constructor
  · exact c7_title_extraction.1 "not-a-url" (by decide)
  · have h := c7_title_extraction.2 "https://en.wikipedia.org/wiki/Albert_Einstein"
      (("/wiki/Albert_Einstein").data) (("/wiki").data) (("Albert_Einstein").data)
      (("Albert_Einstein").data)
      (by decide) (by decide) (by decide) (by decide) (by decide) (by decide)
    rw [h]
    decide

/-- Value stored under key `k` in the association list, `[]` when absent. -/
def vals : List (String × List (Nat × Question)) → String → List (Nat × Question)
  | [], _ => []
  | kv :: rest, k => if kv.1 = k then kv.2 else vals rest k

theorem vals_pushKey_same (g : List (String × List (Nat × Question)))
    (k : String) (e : Nat × Question) :
    vals (pushKey g k e) k = vals g k ++ [e] := by
  induction g with
  | nil => simp [pushKey, vals]
  | cons kv rest ih =>
    obtain ⟨k0, l0⟩ := kv
    by_cases hk : k0 = k
    · subst hk
      simp [pushKey, vals]
    · simp [pushKey, vals, hk, ih]

theorem vals_pushKey_other (g : List (String × List (Nat × Question)))
    {k k' : String} (hne : ¬(k' = k)) (e : Nat × Question) :
    vals (pushKey g k e) k' = vals g k' := by
  have hne2 : ¬(k = k') := fun h => hne h.symm
  induction g with
  | nil => simp [pushKey, vals, hne2]
  | cons kv rest ih =>
    obtain ⟨k0, l0⟩ := kv
    by_cases hk : k0 = k
    · subst hk
      simp [pushKey, vals, hne2]
    · simp only [pushKey, if_neg hk]
      by_cases hk2 : k0 = k'
      · simp [vals, hk2]
      · simp [vals, hk2, ih]

theorem keys_pushKey_mem {g : List (String × List (Nat × Question))} {k : String}
    (hk : k ∈ g.map Prod.fst) (e : Nat × Question) :
    (pushKey g k e).map Prod.fst = g.map Prod.fst := by
  induction g with
  | nil => simp at hk
  | cons kv rest ih =>
    obtain ⟨k0, l0⟩ := kv
    by_cases hk0 : k0 = k
    · subst hk0
      simp [pushKey]
    · rw [List.map_cons] at hk
      have hk3 : k ∈ rest.map Prod.fst := by
        rcases List.mem_cons.mp hk with h | h
        · exact absurd h.symm hk0
        · exact h
      simp [pushKey, hk0, ih hk3]

theorem keys_pushKey_not_mem {g : List (String × List (Nat × Question))} {k : String}
    (hk : ¬ k ∈ g.map Prod.fst) (e : Nat × Question) :
    (pushKey g k e).map Prod.fst = g.map Prod.fst ++ [k] := by
  induction g with
  | nil => simp [pushKey]
  | cons kv rest ih =>
    obtain ⟨k0, l0⟩ := kv
    have hk0 : ¬(k0 = k) := fun h => hk (by simp [h])
    have hk2 : ¬ k ∈ rest.map Prod.fst := fun h => hk (by simp [h])
    simp [pushKey, hk0, ih hk2]

theorem groupSizes_pushKey (g : List (String × List (Nat × Question)))
    (k : String) (e : Nat × Question) :
    groupSizes (pushKey g k e) = groupSizes g + 1 := by
  induction g with
  | nil => simp [pushKey, groupSizes]
  | cons kv rest ih =>
    obtain ⟨k0, l0⟩ := kv
    by_cases hk : k0 = k
    · subst hk
      simp [pushKey, groupSizes]
      omega
    · simp [pushKey, groupSizes, hk] at ih ⊢
      omega

theorem setKey_not_mem {g : List (String × List (Nat × Question))} {k : String}
    (hk : ¬ k ∈ g.map Prod.fst) (v : List (Nat × Question)) :
    setKey g k v = g ++ [(k, v)] := by
  induction g with
  | nil => simp [setKey]
  | cons kv rest ih =>
    obtain ⟨k0, l0⟩ := kv
    have hk0 : ¬(k0 = k) := fun h => hk (by simp [h])
    have hk2 : ¬ k ∈ rest.map Prod.fst := fun h => hk (by simp [h])
    simp [setKey, hk0, ih hk2]

theorem eq_vals_of_mem {g : List (String × List (Nat × Question))}
    (hnd : (g.map Prod.fst).Nodup) {k : String} {l : List (Nat × Question)}
    (hm : (k, l) ∈ g) : vals g k = l := by
  induction g with
  | nil => simp at hm
  | cons kv rest ih =>
    obtain ⟨k0, l0⟩ := kv
    rcases List.mem_cons.mp hm with h | h
    · cases h
      simp [vals]
    · have hkmem : k ∈ rest.map Prod.fst := List.mem_map.mpr ⟨(k, l), h, rfl⟩
      rw [List.map_cons] at hnd
      have hnd2 := List.nodup_cons.mp hnd
      have hk0 : ¬(k0 = k) := fun hkk => hnd2.1 (hkk ▸ hkmem)
      simp only [vals, if_neg hk0]
      exact ih hnd2.2 h

theorem sectionFor_mem {sections : List String} {q : Question} {sec : String}
    (h : sectionFor sections q = some sec) : sec ∈ sections := by
  unfold sectionFor at h
  split at h
  · exact absurd h (by simp)
  · exact List.mem_of_find?_eq_some h

theorem group_foldl_inv (sections : List String) :
    ∀ (l : List (Nat × Question)) (g : List (String × List (Nat × Question)))
      (un : List (Nat × Question)),
      (g.map Prod.fst).Nodup →
      (∀ kv ∈ g, kv.1 ∈ sections) →
      ((l.foldl (groupStep sections) (g, un)).1.map Prod.fst).Nodup ∧
      (∀ kv ∈ (l.foldl (groupStep sections) (g, un)).1, kv.1 ∈ sections) ∧
      groupSizes (l.foldl (groupStep sections) (g, un)).1 +
        (l.foldl (groupStep sections) (g, un)).2.length =
        groupSizes g + un.length + l.length ∧
      (l.foldl (groupStep sections) (g, un)).2 =
        un ++ l.filter (fun e => (sectionFor sections e.2).isNone) ∧
      (∀ k, vals (l.foldl (groupStep sections) (g, un)).1 k =
        vals g k ++ l.filter (fun e => sectionFor sections e.2 = some k)) := by
  intro l
  induction l with
  | nil =>
    intro g un hnd hsub
    exact ⟨hnd, hsub, by simp, by simp, fun k => by simp⟩
  | cons e l2 ih =>
    intro g un hnd hsub
    simp only [List.foldl_cons]
    cases hsec : sectionFor sections e.2 with
    | some sec =>
      have hsecmem : sec ∈ sections := sectionFor_mem hsec
      have hstep : groupStep sections (g, un) e = (pushKey g sec e, un) := by
        simp [groupStep, hsec]
      rw [hstep]
      have hnd2 : ((pushKey g sec e).map Prod.fst).Nodup := by
        by_cases hmem : sec ∈ g.map Prod.fst
        · rw [keys_pushKey_mem hmem]; exact hnd
        · rw [keys_pushKey_not_mem hmem]
          refine List.Nodup.append hnd (by simp) ?_
          intro x hx1 hx2
          simp only [List.mem_singleton] at hx2
          subst hx2
          exact hmem hx1
      have hsub2 : ∀ kv ∈ pushKey g sec e, kv.1 ∈ sections := by
        intro kv hkv
        have hmem2 : kv.1 ∈ (pushKey g sec e).map Prod.fst :=
          List.mem_map.mpr ⟨kv, hkv, rfl⟩
        by_cases hmem : sec ∈ g.map Prod.fst
        · rw [keys_pushKey_mem hmem] at hmem2
          obtain ⟨kv2, hkv2, hfst⟩ := List.mem_map.mp hmem2
          exact hfst ▸ hsub kv2 hkv2
        · rw [keys_pushKey_not_mem hmem] at hmem2
          rcases List.mem_append.mp hmem2 with h1 | h1
          · obtain ⟨kv2, hkv2, hfst⟩ := List.mem_map.mp h1
            exact hfst ▸ hsub kv2 hkv2
          · simp only [List.mem_singleton] at h1
            exact h1 ▸ hsecmem
      obtain ⟨C1, C2, C3, C4, C5⟩ := ih (pushKey g sec e) un hnd2 hsub2
      refine ⟨C1, C2, ?_, ?_, ?_⟩
      · rw [C3, groupSizes_pushKey]
        simp
        omega
      · rw [C4]
        simp [List.filter_cons, hsec]
      · intro k
        rw [C5 k]
        by_cases hk : sec = k
        · subst hk
          rw [vals_pushKey_same]
          simp [List.filter_cons, hsec]
        · rw [vals_pushKey_other _ (fun hkk => hk hkk.symm)]
          simp [List.filter_cons, hsec, hk]
    | none =>
      have hstep : groupStep sections (g, un) e = (g, un ++ [e]) := by
        simp [groupStep, hsec]
      rw [hstep]
      obtain ⟨C1, C2, C3, C4, C5⟩ := ih g (un ++ [e]) hnd hsub
      refine ⟨C1, C2, ?_, ?_, ?_⟩
      · rw [C3]
        simp
        omega
      · rw [C4]
        simp [List.filter_cons, hsec]
      · intro k
        rw [C5 k]
        simp [List.filter_cons, hsec]

theorem targetKey_eq_iff {sections : List String} (h : ¬ "General" ∈ sections)
    {q : Question} {k : String} (hk : k ∈ sections) :
    targetKey sections q = k ↔ sectionFor sections q = some k := by
  constructor
  · intro ht
    cases hsf : sectionFor sections q with
    | none =>
      unfold targetKey at ht
      rw [hsf] at ht
      simp only [Option.getD_none] at ht
      exact absurd (ht ▸ hk) h
    | some sec =>
      unfold targetKey at ht
      rw [hsf] at ht
      simp only [Option.getD_some] at ht
      rw [ht]
  · intro hs
    unfold targetKey
    rw [hs]
    rfl

theorem targetKey_general_iff {sections : List String} (h : ¬ "General" ∈ sections)
    {q : Question} :
    targetKey sections q = "General" ↔ sectionFor sections q = none := by
  constructor
  · intro ht
    cases hsf : sectionFor sections q with
    | none => rfl
    | some sec =>
      unfold targetKey at ht
      rw [hsf] at ht
      simp only [Option.getD_some] at ht
      exact absurd (ht ▸ sectionFor_mem hsf) h
  · intro hs
    unfold targetKey
    rw [hs]
    rfl

/-- **C9 (counterexample).** With sections `["General"]`, a quiz whose first
question matches section `General` and whose second question matches nothing
loses the first question: the final `grouped['General'] = unmatched`
assignment overwrites the matched group, so the group sizes sum to 1 while
the quiz has 2 questions, and question 0 is in no group. -/
theorem c9_counterexample :
    groupSizes (groupQuestionsBySection
      [⟨"q0", [], "A", "easy", "about General things"⟩,
       ⟨"q1", [], "A", "easy", "zzz"⟩] ["General"]) = 1 ∧
    ([⟨"q0", [], "A", "easy", "about General things"⟩,
      ⟨"q1", [], "A", "easy", "zzz"⟩] : List Question).length = 2 ∧
    (∀ kl ∈ groupQuestionsBySection
      [⟨"q0", [], "A", "easy", "about General things"⟩,
       ⟨"q1", [], "A", "easy", "zzz"⟩] ["General"],
      ¬ (0, (⟨"q0", [], "A", "easy", "about General things"⟩ : Question)) ∈ kl.2) := by
  decide

/-- **C9 (amended).** Provided no section is named `General` — the code's
fallback key, which the final `grouped['General'] = unmatched` assignment
would otherwise overwrite — `groupQuestionsBySection` partitions the quiz:
group keys are distinct, the group sizes sum to the number of questions, and
an indexed question belongs to a group exactly when that group's key is its
first matching section, or `General` when no section matches; every entry
keeps its original index (membership is as an element of `quiz.enum`). -/
theorem c9_partition (quiz : List Question) (sections : List String)
    (h : ¬ "General" ∈ sections) :
    groupSizes (groupQuestionsBySection quiz sections) = quiz.length ∧
    ((groupQuestionsBySection quiz sections).map Prod.fst).Nodup ∧
    ∀ kl ∈ groupQuestionsBySection quiz sections, ∀ e : Nat × Question,
      e ∈ kl.2 ↔ e ∈ quiz.enum ∧ targetKey sections e.2 = kl.1 := by
  obtain ⟨C1, C2, C3, C4, C5⟩ :=
    group_foldl_inv sections quiz.enum [] [] (by simp) (by simp)
  have hcore : ∀ kl ∈ (quiz.enum.foldl (groupStep sections) ([], [])).1,
      ∀ e : Nat × Question,
      e ∈ kl.2 ↔ e ∈ quiz.enum ∧ targetKey sections e.2 = kl.1 := by
    intro kl hkl e
    have hkl1 : kl.1 ∈ sections := C2 kl hkl
    have hklmem : (kl.1, kl.2) ∈
        (quiz.enum.foldl (groupStep sections) ([], [])).1 := by
      rw [Prod.mk.eta]; exact hkl
    have hv := eq_vals_of_mem C1 hklmem
    have h5 := C5 kl.1
    rw [hv] at h5
    simp only [vals, List.nil_append] at h5
    simp only [h5, List.mem_filter, decide_eq_true_eq]
    exact ⟨fun hp => ⟨hp.1, (targetKey_eq_iff h hkl1).mpr hp.2⟩,
      fun hp => ⟨hp.1, (targetKey_eq_iff h hkl1).mp hp.2⟩⟩
  have hgen : ∀ e : Nat × Question,
      e ∈ (quiz.enum.foldl (groupStep sections) ([], [])).2 ↔
        e ∈ quiz.enum ∧ targetKey sections e.2 = "General" := by
    intro e
    rw [C4]
    simp only [List.nil_append, List.mem_filter, Option.isNone_iff_eq_none]
    exact ⟨fun hp => ⟨hp.1, (targetKey_general_iff h).mpr hp.2⟩,
      fun hp => ⟨hp.1, (targetKey_general_iff h).mp hp.2⟩⟩
  unfold groupQuestionsBySection
  by_cases hun : (quiz.enum.foldl (groupStep sections) ([], [])).2 = []
  · dsimp only
    rw [if_pos hun]
    refine ⟨?_, C1, hcore⟩
    rw [hun] at C3
    simpa [List.enum_length, groupSizes] using C3
  · dsimp only
    rw [if_neg hun]
    have hGnotin : ¬ "General" ∈
        ((quiz.enum.foldl (groupStep sections) ([], [])).1.map Prod.fst) := by
      intro hmem
      obtain ⟨kv, hkv, hfst⟩ := List.mem_map.mp hmem
      exact h (hfst ▸ C2 kv hkv)
    rw [setKey_not_mem hGnotin]
    refine ⟨?_, ?_, ?_⟩
    · have hgs : groupSizes
          ((quiz.enum.foldl (groupStep sections) ([], [])).1 ++
            [("General", (quiz.enum.foldl (groupStep sections) ([], [])).2)]) =
          groupSizes (quiz.enum.foldl (groupStep sections) ([], [])).1 +
            (quiz.enum.foldl (groupStep sections) ([], [])).2.length := by
        simp [groupSizes]
      rw [hgs]
      simpa [List.enum_length, groupSizes] using C3
    · rw [List.map_append]
      refine List.Nodup.append C1 (by simp) ?_
      intro x hx1 hx2
      simp only [List.map_cons, List.map_nil, List.mem_singleton] at hx2
      subst hx2
      exact hGnotin hx1
    · intro kl hkl e
      rcases List.mem_append.mp hkl with hin | hin
      · exact hcore kl hin e
      · simp only [List.mem_singleton] at hin
        subst hin
        simpa using hgen e

theorem c9_witness :
    groupSizes (groupQuestionsBySection
      [⟨"q0", [], "A", "easy", "about History things"⟩,
       ⟨"q1", [], "A", "easy", "zzz"⟩] ["History"]) = 2 := by
  have h := c9_partition
    [⟨"q0", [], "A", "easy", "about History things"⟩,
     ⟨"q1", [], "A", "easy", "zzz"⟩] ["History"] (by decide)
  rw [h.1]
  decide

end WikiQuiz
